import Mathlib

set_option maxRecDepth 100000

/-!
# Verification of the kvt key-value-timestamp store

Shallow embedding of `kvt.go` (package kvt): a mergeable key|value|timestamp
store with last-write-wins conflict resolution.

* `ValueTimestamp` embeds the Go struct `ValueTimestamp` (`Value *string`,
  `Timestamp int64`): the value is `Option String` (`none` = deletion marker /
  tombstone), the timestamp an integer (Go `int64`; the store never performs
  arithmetic on timestamps, only comparisons, so `Int` models it faithfully).
* `Store` embeds the Go type `Store = map[string]*ValueTimestamp`, modelled as
  an association list; Go map semantics (at most one binding per key) is the
  `Store.nodupKeys` invariant, taken as a hypothesis where a proof needs it.
* Go map indexing `store[key]` (returning `nil` when absent) is `Store.find`,
  returning `none` when absent.
-/

structure ValueTimestamp where
  value : Option String
  timestamp : Int
deriving DecidableEq, Repr

abbrev Store := List (String × ValueTimestamp)

/-- Go map indexing `store[key]`: the unique binding for `key`, if any. -/
def Store.find : Store → String → Option ValueTimestamp
  | [], _ => none
  | kv :: rest, key => if kv.1 = key then some kv.2 else Store.find rest key

/-- The Go map invariant: an association list models a map only when no key
is bound twice. -/
def Store.nodupKeys (store : Store) : Prop := (store.map Prod.fst).Nodup

instance (store : Store) : Decidable store.nodupKeys := by
  unfold Store.nodupKeys; exact List.nodupDecidable _

/-- Replace the entry stored under `key` (models mutating the map slot /
the pointed-to struct). Bindings for other keys are untouched. -/
def Store.updateEntry : Store → String → ValueTimestamp → Store
  | [], _, _ => []
  | kv :: rest, key, e =>
    (if kv.1 = key then (key, e) else kv) :: Store.updateEntry rest key e

/-- Go `Store.Get`: the value for a key; if the key does not exist or is marked
deleted, an empty string is returned. -/
def Store.get (store : Store) (key : String) : String :=
  match store.find key with
  | none => ""
  | some vt =>
    match vt.value with
    | none => ""
    | some v => v

/-- Go `Store.SetTimestamped`: stores the value for the key as long as there is
not already a value for that key with a newer or equal timestamp. -/
def Store.setTimestamped (store : Store) (key value : String) (timestamp : Int) : Store :=
  match store.find key with
  | none => store ++ [(key, ⟨some value, timestamp⟩)]
  | some vt =>
    if vt.timestamp < timestamp then store.updateEntry key ⟨some value, timestamp⟩ else store

/-- Go `Store.DeleteTimestamped`: records a deletion marker for the key as long
as there is not already a value for that key with a newer or equal
timestamp. -/
def Store.deleteTimestamped (store : Store) (key : String) (timestamp : Int) : Store :=
  match store.find key with
  | none => store ++ [(key, ⟨none, timestamp⟩)]
  | some vt =>
    if vt.timestamp < timestamp then store.updateEntry key ⟨none, timestamp⟩ else store

/-- Go `Store.Purge`: discards any deletion markers older than the cutoff
timestamp given (the Go loop deletes, while ranging, every binding whose
entry has `Value == nil` and `Timestamp < cutoff`; this keeps the rest). -/
def Store.purge : Store → Int → Store
  | [], _ => []
  | kv :: rest, cutoff =>
    if kv.2.value = none ∧ kv.2.timestamp < cutoff then Store.purge rest cutoff
    else kv :: Store.purge rest cutoff

/-- One iteration of the `Store.Absorb` loop body for a donor binding. -/
def Store.absorbOne (store : Store) (kv : String × ValueTimestamp) : Store :=
  match store.find kv.1 with
  | none => store ++ [kv]
  | some vt => if vt.timestamp < kv.2.timestamp then store.updateEntry kv.1 kv.2 else store

/-- Go `Store.Absorb`: updates `store` with any newer items from `store2`. -/
def Store.absorb (store store2 : Store) : Store :=
  store2.foldl Store.absorbOne store

/-! ## Basic lookup lemmas -/

theorem Store.find_append_of_none {s : Store} (t : Store) {k : String}
    (h : s.find k = none) : (s ++ t).find k = t.find k := by
  induction s with
  | nil => rfl
  | cons kv rest ih =>
    by_cases hk : kv.1 = k
    · simp [Store.find, hk] at h
    · simp [Store.find, hk] at h ⊢
      exact ih h

theorem Store.find_append_of_some {s : Store} (t : Store) {k : String} {v : ValueTimestamp}
    (h : s.find k = some v) : (s ++ t).find k = some v := by
  induction s with
  | nil => simp [Store.find] at h
  | cons kv rest ih =>
    by_cases hk : kv.1 = k
    · simp [Store.find, hk] at h ⊢; exact h
    · simp [Store.find, hk] at h ⊢
      exact ih h

theorem Store.find_updateEntry_self {s : Store} {k : String} {v : ValueTimestamp}
    (e : ValueTimestamp) (h : s.find k = some v) :
    (s.updateEntry k e).find k = some e := by
  induction s with
  | nil => simp [Store.find] at h
  | cons kv rest ih =>
    by_cases hk : kv.1 = k
    · simp [Store.find, Store.updateEntry, hk]
    · simp [Store.find, Store.updateEntry, hk] at h ⊢
      exact ih h

theorem Store.find_updateEntry_ne (s : Store) {k k' : String} (e : ValueTimestamp)
    (h : k' ≠ k) : (s.updateEntry k e).find k' = s.find k' := by
  induction s with
  | nil => rfl
  | cons kv rest ih =>
    by_cases hk : kv.1 = k
    · simp [Store.find, Store.updateEntry, hk, Ne.symm h, ih]
    · simp [Store.find, Store.updateEntry, hk, ih]

theorem Store.find_eq_none_of_not_mem {s : Store} {k : String}
    (h : k ∉ s.map Prod.fst) : s.find k = none := by
  induction s with
  | nil => rfl
  | cons kv rest ih =>
    simp only [List.map_cons, List.mem_cons] at h
    push_neg at h
    have hne : ¬ kv.1 = k := fun hc => h.1 hc.symm
    simp only [Store.find, if_neg hne]
    exact ih h.2

/-! ## Per-key characterizations of the mutating operations -/

theorem Store.find_setTimestamped (s : Store) (key value : String) (t : Int) (k : String) :
    (s.setTimestamped key value t).find k =
      if k = key then
        match s.find key with
        | none => some ⟨some value, t⟩
        | some e => if e.timestamp < t then some ⟨some value, t⟩ else some e
      else s.find k := by
  by_cases hk : k = key
  · subst hk
    rcases h : s.find k with _ | e
    · simp only [Store.setTimestamped, h, if_pos rfl]
      rw [Store.find_append_of_none _ h]; simp [Store.find]
    · simp only [Store.setTimestamped, h, if_pos rfl]
      by_cases hlt : e.timestamp < t
      · rw [if_pos hlt, if_pos hlt]; exact Store.find_updateEntry_self _ h
      · rw [if_neg hlt, if_neg hlt]; exact h
  · rw [if_neg hk]
    have hne : ¬ key = k := fun hc => hk hc.symm
    rcases hfk : s.find key with _ | e
    · simp only [Store.setTimestamped, hfk]
      rcases hsk : s.find k with _ | v
      · rw [Store.find_append_of_none _ hsk]
        simp [Store.find, hne]
      · exact Store.find_append_of_some _ hsk
    · simp only [Store.setTimestamped, hfk]
      by_cases hlt : e.timestamp < t
      · rw [if_pos hlt]; exact Store.find_updateEntry_ne _ _ hk
      · rw [if_neg hlt]

theorem Store.find_deleteTimestamped (s : Store) (key : String) (t : Int) (k : String) :
    (s.deleteTimestamped key t).find k =
      if k = key then
        match s.find key with
        | none => some ⟨none, t⟩
        | some e => if e.timestamp < t then some ⟨none, t⟩ else some e
      else s.find k := by
  by_cases hk : k = key
  · subst hk
    rcases h : s.find k with _ | e
    · simp only [Store.deleteTimestamped, h, if_pos rfl]
      rw [Store.find_append_of_none _ h]; simp [Store.find]
    · simp only [Store.deleteTimestamped, h, if_pos rfl]
      by_cases hlt : e.timestamp < t
      · rw [if_pos hlt, if_pos hlt]; exact Store.find_updateEntry_self _ h
      · rw [if_neg hlt, if_neg hlt]; exact h
  · rw [if_neg hk]
    have hne : ¬ key = k := fun hc => hk hc.symm
    rcases hfk : s.find key with _ | e
    · simp only [Store.deleteTimestamped, hfk]
      rcases hsk : s.find k with _ | v
      · rw [Store.find_append_of_none _ hsk]
        simp [Store.find, hne]
      · exact Store.find_append_of_some _ hsk
    · simp only [Store.deleteTimestamped, hfk]
      by_cases hlt : e.timestamp < t
      · rw [if_pos hlt]; exact Store.find_updateEntry_ne _ _ hk
      · rw [if_neg hlt]

/-! ## C2: timestamp-gated mutation -/

/-- C2: `SetTimestamped` (and `DeleteTimestamped`, which stores a tombstone)
inserts `Entry(value, t)` when the key is absent; overwrites value and
timestamp when the existing entry's timestamp is strictly less than `t`;
otherwise leaves the store completely unchanged (both are total functions:
no error is possible). Other keys are never affected. -/
theorem Store.setDelete_timestamped_gating (store : Store) (key value : String) (t : Int) :
    (store.find key = none →
      (store.setTimestamped key value t).find key = some ⟨some value, t⟩ ∧
      (store.deleteTimestamped key t).find key = some ⟨none, t⟩) ∧
    (∀ e, store.find key = some e → e.timestamp < t →
      (store.setTimestamped key value t).find key = some ⟨some value, t⟩ ∧
      (store.deleteTimestamped key t).find key = some ⟨none, t⟩) ∧
    (∀ e, store.find key = some e → ¬ e.timestamp < t →
      store.setTimestamped key value t = store ∧
      store.deleteTimestamped key t = store) ∧
    (∀ k, k ≠ key →
      (store.setTimestamped key value t).find k = store.find k ∧
      (store.deleteTimestamped key t).find k = store.find k) := by
  refine ⟨fun h => ?_, fun e he hlt => ?_, fun e he hge => ?_, fun k hk => ?_⟩
  · constructor
    · simp only [Store.setTimestamped, h]
      rw [Store.find_append_of_none _ h]; simp [Store.find]
    · simp only [Store.deleteTimestamped, h]
      rw [Store.find_append_of_none _ h]; simp [Store.find]
  · constructor
    · simp only [Store.setTimestamped, he, hlt, if_true]
      exact Store.find_updateEntry_self _ he
    · simp only [Store.deleteTimestamped, he, hlt, if_true]
      exact Store.find_updateEntry_self _ he
  · constructor
    · simp [Store.setTimestamped, he, hge]
    · simp [Store.deleteTimestamped, he, hge]
  · have hne : ¬ key = k := fun hc => hk hc.symm
    rcases hfk : store.find key with _ | e
    · constructor
      · simp only [Store.setTimestamped, hfk]
        rcases hsk : store.find k with _ | v
        · rw [Store.find_append_of_none _ hsk]
          simp [Store.find, hne]
        · exact Store.find_append_of_some _ hsk
      · simp only [Store.deleteTimestamped, hfk]
        rcases hsk : store.find k with _ | v
        · rw [Store.find_append_of_none _ hsk]
          simp [Store.find, hne]
        · exact Store.find_append_of_some _ hsk
    · constructor
      · simp only [Store.setTimestamped, hfk]
        by_cases hlt : e.timestamp < t
        · rw [if_pos hlt]; exact Store.find_updateEntry_ne _ _ hk
        · rw [if_neg hlt]
      · simp only [Store.deleteTimestamped, hfk]
        by_cases hlt : e.timestamp < t
        · rw [if_pos hlt]; exact Store.find_updateEntry_ne _ _ hk
        · rw [if_neg hlt]

/-- Witness for C2 at a concrete store. -/
theorem Store.setDelete_timestamped_gating_witness :
    Store.find (Store.setTimestamped [("a", ⟨some "x", 5⟩)] "a" "y" 6) "a" =
      some ⟨some "y", 6⟩ :=
  ((Store.setDelete_timestamped_gating [("a", ⟨some "x", 5⟩)] "a" "y" 6).2.1
    ⟨some "x", 5⟩ (by decide) (by decide)).1

/-! ## C8: Get contract and tombstone precedence -/

/-- C8: `Get` returns the stored value for a live entry and the empty string
for an absent key or a tombstone; a `DeleteTimestamped` strictly newer than an
existing live entry hides the value from `Get`. -/
theorem Store.get_contract (store : Store) (key : String) :
    (store.find key = none → store.get key = "") ∧
    (∀ t, store.find key = some ⟨none, t⟩ → store.get key = "") ∧
    (∀ v t, store.find key = some ⟨some v, t⟩ → store.get key = v) ∧
    (∀ v t t', store.find key = some ⟨some v, t⟩ → t < t' →
      (store.deleteTimestamped key t').get key = "") := by
  refine ⟨fun h => ?_, fun t h => ?_, fun v t h => ?_, fun v t t' h hlt => ?_⟩
  · simp [Store.get, h]
  · simp [Store.get, h]
  · simp [Store.get, h]
  · have : (store.deleteTimestamped key t').find key = some ⟨none, t'⟩ := by
      simp only [Store.deleteTimestamped, h, hlt, if_true]
      exact Store.find_updateEntry_self _ h
    simp [Store.get, this]

/-- Witness for C8 at a concrete store. -/
theorem Store.get_contract_witness :
    Store.get (Store.deleteTimestamped [("a", ⟨some "one", 1⟩)] "a" 2) "a" = "" :=
  (Store.get_contract [("a", ⟨some "one", 1⟩)] "a").2.2.2 "one" 1 2 (by decide) (by decide)

/-! ## C9: live empty-string value is indistinguishable from absence via Get -/

/-- C9: when `SetTimestamped key "" t` installs the write (key absent, or
existing timestamp strictly older), the stored entry is live (`some ""`) with
timestamp `t`, yet `Get` returns `""`, the same answer as for an absent or
tombstoned key. -/
theorem Store.set_empty_value_get (store : Store) (key : String) (t : Int)
    (h : store.find key = none ∨ ∃ e, store.find key = some e ∧ e.timestamp < t) :
    (store.setTimestamped key "" t).find key = some ⟨some "", t⟩ ∧
    (store.setTimestamped key "" t).get key = "" := by
  have hfind : (store.setTimestamped key "" t).find key = some ⟨some "", t⟩ := by
    rw [Store.find_setTimestamped, if_pos rfl]
    rcases h with h | ⟨e, he, hlt⟩
    · simp only [h]
    · simp only [he, if_pos hlt]
  exact ⟨hfind, by simp [Store.get, hfind]⟩

/-- Witness for C9 at a concrete store. -/
theorem Store.set_empty_value_get_witness :
    Store.find (Store.setTimestamped [] "a" "" 7) "a" = some ⟨some "", 7⟩ ∧
    Store.get (Store.setTimestamped [] "a" "" 7) "a" = "" :=
  Store.set_empty_value_get [] "a" 7 (Or.inl (by decide))

/-! ## C6: purge boundary -/

theorem Store.purge_keys_mem {s : Store} {c : Int} {k : String}
    (h : k ∈ (Store.purge s c).map Prod.fst) : k ∈ s.map Prod.fst := by
  induction s with
  | nil => simp [Store.purge] at h
  | cons kv rest ih =>
    by_cases hcond : kv.2.value = none ∧ kv.2.timestamp < c
    · simp only [Store.purge, if_pos hcond] at h
      simp [ih h]
    · simp only [Store.purge, if_neg hcond, List.map_cons, List.mem_cons] at h
      rcases h with h | h
      · simp [h]
      · simp [ih h]

/-- Per-key characterization of `Purge` over a duplicate-free store. -/
theorem Store.find_purge (store : Store) (cutoff : Int) (key : String)
    (hnd : store.nodupKeys) :
    (store.purge cutoff).find key =
      match store.find key with
      | none => none
      | some e => if e.value = none ∧ e.timestamp < cutoff then none else some e := by
  induction store with
  | nil => rfl
  | cons kv rest ih =>
    have hnd' : Store.nodupKeys rest := by
      simpa [Store.nodupKeys] using (List.nodup_cons.mp hnd).2
    have hnotmem : kv.1 ∉ rest.map Prod.fst := (List.nodup_cons.mp hnd).1
    by_cases hcond : kv.2.value = none ∧ kv.2.timestamp < cutoff
    · by_cases hk : kv.1 = key
      · have hnone : (Store.purge rest cutoff).find key = none := by
          apply Store.find_eq_none_of_not_mem
          intro hmem
          exact (hk ▸ hnotmem) (Store.purge_keys_mem hmem)
        simp [Store.purge, hcond, Store.find, hk, hnone]
      · simp only [Store.purge, if_pos hcond, Store.find, if_neg hk]
        exact ih hnd'
    · by_cases hk : kv.1 = key
      · simp [Store.purge, hcond, Store.find, hk]
      · simp only [Store.purge, if_neg hcond, Store.find, if_neg hk]
        exact ih hnd'

/-- C6: `Purge cutoff` removes exactly the keys holding a tombstone with
timestamp strictly less than `cutoff`; a tombstone at exactly `cutoff` is
retained and live entries are never removed. -/
theorem Store.purge_boundary (store : Store) (cutoff : Int) (key : String)
    (hnd : store.nodupKeys) :
    (store.purge cutoff).find key =
      match store.find key with
      | none => none
      | some e => if e.value = none ∧ e.timestamp < cutoff then none else some e :=
  Store.find_purge store cutoff key hnd

/-- Witness for C6 at a concrete store: a tombstone one tick older than the
cutoff is removed. -/
theorem Store.purge_boundary_witness :
    Store.find (Store.purge [("a", ⟨none, 4⟩)] 5) "a" = none :=
  Store.purge_boundary [("a", ⟨none, 4⟩)] 5 "a" (by decide)

/-! ## Absorb -/

/-- The per-key last-write-wins resolution applied by `Absorb`: the donor
entry wins only when strictly newer than the existing one. -/
def lwwMerge (old : Option ValueTimestamp) (e2 : ValueTimestamp) : ValueTimestamp :=
  match old with
  | none => e2
  | some e1 => if e1.timestamp < e2.timestamp then e2 else e1

/-- The per-key result of `A.Absorb(B)` described by the specification. -/
def absorbSpec (A B : Store) (k : String) : Option ValueTimestamp :=
  match B.find k with
  | none => A.find k
  | some e2 => some (lwwMerge (A.find k) e2)

theorem Store.find_absorbOne_self (s : Store) (kv : String × ValueTimestamp) :
    (s.absorbOne kv).find kv.1 = some (lwwMerge (s.find kv.1) kv.2) := by
  rcases h : s.find kv.1 with _ | e
  · simp only [Store.absorbOne, h, lwwMerge]
    rw [Store.find_append_of_none _ h]
    simp [Store.find]
  · simp only [Store.absorbOne, h, lwwMerge]
    by_cases hlt : e.timestamp < kv.2.timestamp
    · rw [if_pos hlt, if_pos hlt]
      exact Store.find_updateEntry_self _ h
    · rw [if_neg hlt, if_neg hlt]
      exact h

theorem Store.find_absorbOne_ne (s : Store) (kv : String × ValueTimestamp) {k : String}
    (hk : k ≠ kv.1) : (s.absorbOne kv).find k = s.find k := by
  have hne : ¬ kv.1 = k := fun hc => hk hc.symm
  rcases h : s.find kv.1 with _ | e
  · simp only [Store.absorbOne, h]
    rcases hsk : s.find k with _ | v
    · rw [Store.find_append_of_none _ hsk]
      simp [Store.find, hne]
    · exact Store.find_append_of_some _ hsk
  · simp only [Store.absorbOne, h]
    by_cases hlt : e.timestamp < kv.2.timestamp
    · rw [if_pos hlt]; exact Store.find_updateEntry_ne _ _ hk
    · rw [if_neg hlt]

/-- Per-key characterization of `Absorb` over a duplicate-free donor. -/
theorem Store.find_absorb (A B : Store) (hB : B.nodupKeys) (k : String) :
    (A.absorb B).find k = absorbSpec A B k := by
  induction B generalizing A with
  | nil => rfl
  | cons kv rest ih =>
    have hrest : Store.nodupKeys rest := by
      simpa [Store.nodupKeys] using (List.nodup_cons.mp hB).2
    have hnotmem : kv.1 ∉ rest.map Prod.fst := (List.nodup_cons.mp hB).1
    show (Store.absorb (A.absorbOne kv) rest).find k = _
    rw [ih (A.absorbOne kv) hrest]
    by_cases hk : k = kv.1
    · subst hk
      have hrf : Store.find rest kv.1 = none := Store.find_eq_none_of_not_mem hnotmem
      have hhead : Store.find (kv :: rest) kv.1 = some kv.2 := by simp [Store.find]
      simp only [absorbSpec, hrf, hhead]
      exact Store.find_absorbOne_self A kv
    · have hne : ¬ kv.1 = k := fun hc => hk hc.symm
      have hhead : Store.find (kv :: rest) k = Store.find rest k := by
        simp [Store.find, hne]
      simp only [absorbSpec, hhead]
      rcases hrf : Store.find rest k with _ | e2
      · exact Store.find_absorbOne_ne A kv hk
      · rw [Store.find_absorbOne_ne A kv hk]

/-! ## C3: Absorb per-key semantics -/

/-- C3: `A.Absorb(B)` replaces `A`'s entry for a key with the donor entry
exactly when `A` lacks the key or `A`'s entry is strictly older; equal
timestamps keep `A`'s entry; keys of `A` not present in `B` are untouched. -/
theorem Store.absorb_per_key (A B : Store) (hB : B.nodupKeys) (k : String) :
    (B.find k = none → (A.absorb B).find k = A.find k) ∧
    (∀ e2, B.find k = some e2 → A.find k = none → (A.absorb B).find k = some e2) ∧
    (∀ e2 e1, B.find k = some e2 → A.find k = some e1 → e1.timestamp < e2.timestamp →
      (A.absorb B).find k = some e2) ∧
    (∀ e2 e1, B.find k = some e2 → A.find k = some e1 → ¬ e1.timestamp < e2.timestamp →
      (A.absorb B).find k = some e1) := by
  refine ⟨fun h => ?_, fun e2 h2 h1 => ?_, fun e2 e1 h2 h1 hlt => ?_, fun e2 e1 h2 h1 hge => ?_⟩
  · rw [Store.find_absorb A B hB k]; simp [absorbSpec, h]
  · rw [Store.find_absorb A B hB k]; simp [absorbSpec, h1, h2, lwwMerge]
  · rw [Store.find_absorb A B hB k]; simp [absorbSpec, h1, h2, lwwMerge, hlt]
  · rw [Store.find_absorb A B hB k]; simp [absorbSpec, h1, h2, lwwMerge, hge]

/-- Witness for C3 at concrete stores: equal timestamps favor the receiver. -/
theorem Store.absorb_per_key_witness :
    Store.find (Store.absorb [("a", ⟨some "mine", 3⟩)] [("a", ⟨some "theirs", 3⟩)]) "a" =
      some ⟨some "mine", 3⟩ :=
  (Store.absorb_per_key [("a", ⟨some "mine", 3⟩)] [("a", ⟨some "theirs", 3⟩)]
    (by decide) "a").2.2.2 ⟨some "theirs", 3⟩ ⟨some "mine", 3⟩ (by decide) (by decide)
    (by decide)

/-! ## Key-set and duplicate-freeness preservation -/

theorem Store.find_isSome_of_mem {s : Store} {k : String} (h : k ∈ s.map Prod.fst) :
    ∃ v, s.find k = some v := by
  induction s with
  | nil => simp at h
  | cons kv rest ih =>
    by_cases hk : kv.1 = k
    · exact ⟨kv.2, by simp [Store.find, hk]⟩
    · simp only [List.map_cons, List.mem_cons] at h
      rcases h with h | h
      · exact absurd h.symm hk
      · obtain ⟨v, hv⟩ := ih h
        exact ⟨v, by simp [Store.find, hk, hv]⟩

theorem Store.keys_updateEntry (s : Store) (k : String) (e : ValueTimestamp) :
    (s.updateEntry k e).map Prod.fst = s.map Prod.fst := by
  induction s with
  | nil => rfl
  | cons kv rest ih =>
    by_cases hk : kv.1 = k
    · simp [Store.updateEntry, hk, ih]
    · simp [Store.updateEntry, hk, ih]

theorem Store.nodupKeys_append {s : Store} {k : String} (e : ValueTimestamp)
    (hnd : s.nodupKeys) (h : s.find k = none) : (s ++ [(k, e)]).nodupKeys := by
  have hk : k ∉ s.map Prod.fst := by
    intro hmem
    obtain ⟨v, hv⟩ := Store.find_isSome_of_mem hmem
    rw [h] at hv
    cases hv
  unfold Store.nodupKeys at hnd ⊢
  rw [List.map_append]
  refine List.Nodup.append hnd (by simp) ?_
  intro a ha hb
  simp at hb
  exact hk (hb ▸ ha)

theorem Store.nodupKeys_updateEntry {s : Store} (k : String) (e : ValueTimestamp)
    (hnd : s.nodupKeys) : (s.updateEntry k e).nodupKeys := by
  unfold Store.nodupKeys
  rw [Store.keys_updateEntry]
  exact hnd

theorem Store.nodupKeys_setTimestamped {s : Store} (key value : String) (t : Int)
    (hnd : s.nodupKeys) : (s.setTimestamped key value t).nodupKeys := by
  unfold Store.setTimestamped
  rcases h : s.find key with _ | e
  · exact Store.nodupKeys_append _ hnd h
  · dsimp only
    by_cases hlt : e.timestamp < t
    · rw [if_pos hlt]; exact Store.nodupKeys_updateEntry _ _ hnd
    · rw [if_neg hlt]; exact hnd

theorem Store.nodupKeys_deleteTimestamped {s : Store} (key : String) (t : Int)
    (hnd : s.nodupKeys) : (s.deleteTimestamped key t).nodupKeys := by
  unfold Store.deleteTimestamped
  rcases h : s.find key with _ | e
  · exact Store.nodupKeys_append _ hnd h
  · dsimp only
    by_cases hlt : e.timestamp < t
    · rw [if_pos hlt]; exact Store.nodupKeys_updateEntry _ _ hnd
    · rw [if_neg hlt]; exact hnd

theorem Store.purge_sublist (s : Store) (c : Int) : List.Sublist (Store.purge s c) s := by
  induction s with
  | nil => exact List.Sublist.refl _
  | cons kv rest ih =>
    by_cases hcond : kv.2.value = none ∧ kv.2.timestamp < c
    · simp only [Store.purge, if_pos hcond]
      exact ih.cons kv
    · simp only [Store.purge, if_neg hcond]
      exact ih.cons₂ kv

theorem Store.nodupKeys_purge {s : Store} (c : Int) (hnd : s.nodupKeys) :
    (s.purge c).nodupKeys :=
  List.Nodup.sublist ((Store.purge_sublist s c).map Prod.fst) hnd

theorem Store.nodupKeys_absorbOne {s : Store} (kv : String × ValueTimestamp)
    (hnd : s.nodupKeys) : (s.absorbOne kv).nodupKeys := by
  unfold Store.absorbOne
  rcases h : s.find kv.1 with _ | e
  · exact Store.nodupKeys_append _ hnd h
  · dsimp only
    by_cases hlt : e.timestamp < kv.2.timestamp
    · rw [if_pos hlt]; exact Store.nodupKeys_updateEntry _ _ hnd
    · rw [if_neg hlt]; exact hnd

theorem Store.nodupKeys_absorb (B : Store) {A : Store} (hnd : A.nodupKeys) :
    (A.absorb B).nodupKeys := by
  induction B generalizing A with
  | nil => exact hnd
  | cons kv rest ih => exact ih (Store.nodupKeys_absorbOne kv hnd)

/-! ## absorbOne as an if-formula -/

theorem Store.find_absorbOne (s : Store) (kv : String × ValueTimestamp) (k : String) :
    (s.absorbOne kv).find k =
      if k = kv.1 then
        match s.find kv.1 with
        | none => some kv.2
        | some e => if e.timestamp < kv.2.timestamp then some kv.2 else some e
      else s.find k := by
  by_cases hk : k = kv.1
  · subst hk
    rw [if_pos rfl, Store.find_absorbOne_self]
    rcases h : s.find kv.1 with _ | e
    · simp [lwwMerge]
    · by_cases hlt : e.timestamp < kv.2.timestamp <;> simp [lwwMerge, hlt]
  · rw [if_neg hk]
    exact Store.find_absorbOne_ne s kv hk

/-! ## Lookup is invariant under permutation of a duplicate-free store -/

theorem Store.find_perm {B B' : Store} (hperm : List.Perm B B') (hnd : B.nodupKeys)
    (k : String) : B.find k = B'.find k := by
  induction hperm with
  | nil => rfl
  | cons kv _ ih =>
    rename_i l1 l2 _
    have hnd' : Store.nodupKeys l1 := by
      simpa [Store.nodupKeys] using (List.nodup_cons.mp hnd).2
    by_cases hk : kv.1 = k
    · simp [Store.find, hk]
    · simp only [Store.find, if_neg hk]
      exact ih hnd'
  | swap x y l =>
    have hxy : y.1 ≠ x.1 := by
      have := (List.nodup_cons.mp hnd).1
      simp only [List.map_cons, List.mem_cons] at this
      push_neg at this
      exact this.1
    by_cases hx : x.1 = k
    · by_cases hy : y.1 = k
      · exact absurd (hy.trans hx.symm) hxy
      · simp [Store.find, hx, hy]
    · by_cases hy : y.1 = k
      · simp [Store.find, hx, hy]
      · simp [Store.find, hx, hy]
  | trans h1 _ ih1 ih2 =>
    refine (ih1 hnd).trans (ih2 ?_)
    unfold Store.nodupKeys at hnd ⊢
    exact ((h1.map Prod.fst).nodup_iff).mp hnd

/-! ## Replaying a donor's entries as individual writes -/

/-- Applying one donor binding to `A` as an individual write: a live entry
through `SetTimestamped`, a tombstone through `DeleteTimestamped`. -/
def applyWrite (A : Store) (kv : String × ValueTimestamp) : Store :=
  match kv.2.value with
  | some v => A.setTimestamped kv.1 v kv.2.timestamp
  | none => A.deleteTimestamped kv.1 kv.2.timestamp

/-- Replaying every binding of `B` into `A` as individual writes, in the
order `B` lists them. -/
def Store.replay (A B : Store) : Store := B.foldl applyWrite A

theorem find_applyWrite (A : Store) (kv : String × ValueTimestamp) (k : String) :
    (applyWrite A kv).find k = (A.absorbOne kv).find k := by
  obtain ⟨kk, val, ts⟩ := kv
  rcases val with _ | v
  · show (A.deleteTimestamped kk ts).find k = _
    rw [Store.find_deleteTimestamped, Store.find_absorbOne]
  · show (A.setTimestamped kk v ts).find k = _
    rw [Store.find_setTimestamped, Store.find_absorbOne]

theorem Store.nodupKeys_applyWrite {A : Store} (kv : String × ValueTimestamp)
    (hnd : A.nodupKeys) : (applyWrite A kv).nodupKeys := by
  obtain ⟨kk, val, ts⟩ := kv
  rcases val with _ | v
  · exact Store.nodupKeys_deleteTimestamped kk ts hnd
  · exact Store.nodupKeys_setTimestamped kk v ts hnd

theorem Store.nodupKeys_replay (B : Store) {A : Store} (hnd : A.nodupKeys) :
    (A.replay B).nodupKeys := by
  induction B generalizing A with
  | nil => exact hnd
  | cons kv rest ih => exact ih (Store.nodupKeys_applyWrite kv hnd)

/-- The fold in `absorb` reads the receiver only through `find`: receivers with equal
lookups absorb to equal lookups. -/
theorem Store.find_absorb_congr (B : Store) {X Y : Store}
    (h : ∀ k, X.find k = Y.find k) (k : String) :
    (X.absorb B).find k = (Y.absorb B).find k := by
  induction B generalizing X Y with
  | nil => exact h k
  | cons kv rest ih =>
    show (Store.absorb (X.absorbOne kv) rest).find k = (Store.absorb (Y.absorbOne kv) rest).find k
    refine ih ?_ 
    intro k'
    rw [Store.find_absorbOne, Store.find_absorbOne, h, h]

/-- Replaying `B`'s bindings one by one is, lookup for lookup, the same as
absorbing `B`, whatever order `B` lists them in. -/
theorem Store.find_replay (B : Store) (A : Store) (k : String) :
    (A.replay B).find k = (A.absorb B).find k := by
  induction B generalizing A with
  | nil => rfl
  | cons kv rest ih =>
    show (Store.replay (applyWrite A kv) rest).find k = _
    rw [ih (applyWrite A kv)]
    exact Store.find_absorb_congr rest (fun k' => find_applyWrite A kv k') k

/-! ## Hash: FNV-1a 64 over the sorted (key, timestamp) pairs -/

/-- FNV-1a 64-bit offset basis, the initial state of Go's `fnv.New64a`. -/
def fnvOffset64 : Nat := 14695981039346656037

/-- FNV-1a 64-bit prime. -/
def fnvPrime64 : Nat := 1099511628211

/-- One byte of a FNV-1a `Write`: xor the byte into the state, then multiply
by the prime, in 64-bit arithmetic. -/
def fnvStep (h b : Nat) : Nat := ((h ^^^ b) * fnvPrime64) % 2 ^ 64

/-- Go `hasher.Write(bytes)`: fold the bytes into the accumulator state. -/
def fnvWrite (h : Nat) (bytes : List Nat) : Nat := bytes.foldl fnvStep h

/-- The FNV-1a digest of a byte sequence, from the offset basis. -/
def fnv64a (bytes : List Nat) : Nat := fnvWrite fnvOffset64 bytes

/-- UTF-8 encoding of a single code point; Go strings are UTF-8 byte
sequences, and `hasher.Write([]byte(...))` consumes exactly these bytes. -/
def utf8Bytes (c : Nat) : List Nat :=
  if c < 0x80 then [c]
  else if c < 0x800 then [0xC0 + c / 0x40, 0x80 + c % 0x40]
  else if c < 0x10000 then
    [0xE0 + c / 0x1000, 0x80 + c / 0x40 % 0x40, 0x80 + c % 0x40]
  else
    [0xF0 + c / 0x40000, 0x80 + c / 0x1000 % 0x40, 0x80 + c / 0x40 % 0x40, 0x80 + c % 0x40]

/-- The UTF-8 bytes of a string. -/
def strBytes (s : String) : List Nat := (s.data.map fun c => utf8Bytes c.toNat).flatten

/-- One lowercase hex digit. -/
def hexDigit (n : Nat) : Char := Char.ofNat (if n < 10 then 48 + n else 87 + n)

/-- Go `fmt.Sprintf("%016x", n)` for a 64-bit value: sixteen zero-padded
lowercase hex digits. -/
def hex16 (n : Nat) : String :=
  ⟨(List.range 16).map fun i => hexDigit (n / 16 ^ (15 - i) % 16)⟩

/-- The keys of the store, in list (map-iteration) order. -/
def Store.keys (store : Store) : List String := store.map Prod.fst

/-- Go `sort.Strings`: ascending lexicographic order on the UTF-8 bytes,
which coincides with the code-point order `≤` on Lean strings because UTF-8
is order-preserving. -/
def Store.sortedKeys (store : Store) : List String :=
  store.keys.insertionSort (· ≤ ·)

/-- The timestamp hashed for key `k`, Go `store[k].Timestamp` (every hashed
key is present in the map, so the `none` default is never exercised). -/
def Store.timestampOf (store : Store) (k : String) : Int :=
  match store.find k with
  | none => 0
  | some e => e.timestamp

/-- The bytes `fmt.Sprintf("%s\n%d\n", k, store[k].Timestamp)` written to the
hasher for one key; `%d` of an `int64` is ordinary decimal rendering, which
`toString : Int → String` matches (including the `-` sign). -/
def Store.hashChunk (store : Store) (k : String) : List Nat :=
  strBytes (k ++ "\n" ++ toString (store.timestampOf k) ++ "\n")

/-- Go `Store.Hash`: collect the keys, sort them ascending, write each key's
chunk into a fresh FNV-1a 64 hasher, render the final sum with `%016x`. -/
def Store.hash (store : Store) : String :=
  hex16 (store.sortedKeys.foldl (fun h k => fnvWrite h (store.hashChunk k)) fnvOffset64)

/-- The hash algorithm as the specification words it: concatenate the
`"<key>\n<timestamp>\n"` encodings in sorted key order into one byte stream,
take its 64-bit FNV-1a digest, render it as 16 lowercase hex digits. -/
def hashSpec (store : Store) : String :=
  hex16 (fnv64a ((store.sortedKeys.map store.hashChunk).flatten))

theorem fnvWrite_flatten (ls : List (List Nat)) (h : Nat) :
    fnvWrite h ls.flatten = ls.foldl fnvWrite h := by
  induction ls generalizing h with
  | nil => rfl
  | cons l rest ih =>
    show List.foldl fnvStep h (l ++ rest.flatten) = _
    rw [List.foldl_append]
    exact ih (fnvWrite h l)

theorem Store.hash_eq_hashSpec (store : Store) : store.hash = hashSpec store := by
  unfold Store.hash hashSpec fnv64a
  rw [fnvWrite_flatten, List.foldl_map]

theorem Store.mem_keys_iff_find {s : Store} {k : String} :
    k ∈ s.keys ↔ s.find k ≠ none := by
  constructor
  · intro h
    obtain ⟨v, hv⟩ := Store.find_isSome_of_mem h
    simp [hv]
  · intro h
    by_contra hmem
    exact h (Store.find_eq_none_of_not_mem hmem)

theorem Store.sortedKeys_congr {A B : Store} (hA : A.nodupKeys) (hB : B.nodupKeys)
    (h : ∀ k, A.find k = none ↔ B.find k = none) :
    A.sortedKeys = B.sortedKeys := by
  have hperm : List.Perm A.keys B.keys := by
    unfold Store.keys
    rw [List.perm_ext_iff_of_nodup hA hB]
    intro k
    show k ∈ Store.keys A ↔ k ∈ Store.keys B
    rw [Store.mem_keys_iff_find, Store.mem_keys_iff_find]
    exact not_congr (h k)
  exact List.eq_of_perm_of_sorted
    ((List.perm_insertionSort _ _).trans (hperm.trans (List.perm_insertionSort _ _).symm))
    (List.sorted_insertionSort _ _) (List.sorted_insertionSort _ _)

theorem Store.hash_congr_timestamps {A B : Store} (hA : A.nodupKeys) (hB : B.nodupKeys)
    (h : ∀ k, Option.map ValueTimestamp.timestamp (A.find k)
            = Option.map ValueTimestamp.timestamp (B.find k)) :
    A.hash = B.hash := by
  have hiff : ∀ k, A.find k = none ↔ B.find k = none := fun k => by
    rw [← Option.map_eq_none']
    rw [h k]
    rw [Option.map_eq_none']
  have hkeys := Store.sortedKeys_congr hA hB hiff
  have hts : ∀ k, A.timestampOf k = B.timestampOf k := by
    intro k
    have hk := h k
    unfold Store.timestampOf
    rcases hak : A.find k with _ | e <;> rcases hbk : B.find k with _ | e2 <;>
      rw [hak, hbk] at hk <;> simp_all
  have hfun : (fun (h : Nat) (k : String) => fnvWrite h (A.hashChunk k))
            = (fun (h : Nat) (k : String) => fnvWrite h (B.hashChunk k)) := by
    funext h k
    unfold Store.hashChunk
    rw [hts k]
  unfold Store.hash
  rw [hkeys, hfun]

/-! ## C7: the hash algorithm, and value-independence -/

/-- C7: `Hash` is exactly: sort the keys ascending, feed
`"<key>\n<timestamp>\n"` for each key in order into a 64-bit FNV-1a
accumulator, render the final state as 16 zero-padded lowercase hex digits;
consequently two duplicate-free stores with the same keys and the same
per-key timestamps hash identically, whatever their values and list order. -/
theorem Store.hash_algorithm (store : Store) :
    store.hash = hashSpec store ∧
    (∀ B : Store, store.nodupKeys → B.nodupKeys →
      (∀ k, Option.map ValueTimestamp.timestamp (store.find k)
          = Option.map ValueTimestamp.timestamp (B.find k)) →
      store.hash = B.hash) :=
  ⟨Store.hash_eq_hashSpec store,
   fun _ hA hB h => Store.hash_congr_timestamps hA hB h⟩

/-- Witness for C7: two stores with different values and different binding
order, but identical (key, timestamp) pairs, hash identically. -/
theorem Store.hash_algorithm_witness :
    Store.hash [("a", ⟨some "x", 1⟩), ("b", ⟨some "y", 2⟩)] =
    Store.hash [("b", ⟨some "q", 2⟩), ("a", ⟨none, 1⟩)] :=
  (Store.hash_algorithm [("a", ⟨some "x", 1⟩), ("b", ⟨some "y", 2⟩)]).2
    [("b", ⟨some "q", 2⟩), ("a", ⟨none, 1⟩)] (by decide) (by decide)
    (by
      intro k
      by_cases h1 : "a" = k
      · by_cases h2 : "b" = k
        · exact absurd (h1.trans h2.symm) (by decide)
        · simp [Store.find, h1, h2]
      · by_cases h2 : "b" = k
        · simp [Store.find, h1, h2]
        · simp [Store.find, h1, h2])

/-! ## C4: Absorb is equivalent to replaying the donor's writes -/

/-- C4: replaying every binding of `B` as an individual `SetTimestamped`
(live entry) or `DeleteTimestamped` (tombstone), in any order `B'` of `B`,
yields the same mapping, key for key, as `A.Absorb(B)`, and hence the same
`Hash`. -/
theorem Store.absorb_replay_equiv (A B B' : Store) (hA : A.nodupKeys)
    (hB : B.nodupKeys) (hperm : List.Perm B B') :
    (∀ k, (A.replay B').find k = (A.absorb B).find k) ∧
    (A.replay B').hash = (A.absorb B).hash := by
  have hB' : B'.nodupKeys := by
    unfold Store.nodupKeys at hB ⊢
    exact ((hperm.map Prod.fst).nodup_iff).mp hB
  have hfind : ∀ k, (A.replay B').find k = (A.absorb B).find k := by
    intro k
    rw [Store.find_replay]
    rw [Store.find_absorb A B' hB' k, Store.find_absorb A B hB k]
    unfold absorbSpec
    rw [Store.find_perm hperm hB k]
  refine ⟨hfind, ?_⟩
  exact Store.hash_congr_timestamps (Store.nodupKeys_replay B' hA)
    (Store.nodupKeys_absorb B hA) (fun k => by rw [hfind k])

/-- Witness for C4: replaying a two-entry donor in reversed order matches
absorbing it, up to `Hash`. -/
theorem Store.absorb_replay_equiv_witness :
    Store.hash (Store.replay [("a", ⟨some "one", 1⟩)]
        [("b", ⟨none, 3⟩), ("a", ⟨some "two", 2⟩)]) =
    Store.hash (Store.absorb [("a", ⟨some "one", 1⟩)]
        [("a", ⟨some "two", 2⟩), ("b", ⟨none, 3⟩)]) :=
  (Store.absorb_replay_equiv [("a", ⟨some "one", 1⟩)]
    [("a", ⟨some "two", 2⟩), ("b", ⟨none, 3⟩)]
    [("b", ⟨none, 3⟩), ("a", ⟨some "two", 2⟩)]
    (by decide) (by decide) (by decide)).2

/-! ## C10: per-key timestamp monotonicity -/

/-- The store's operations, for stating invariants over operation
sequences. -/
inductive Op where
  | set (key value : String) (timestamp : Int)
  | del (key : String) (timestamp : Int)
  | purge (cutoff : Int)
  | merge (donor : Store)

/-- Applying one operation to a store. -/
def applyOp (store : Store) : Op → Store
  | .set k v t => store.setTimestamped k v t
  | .del k t => store.deleteTimestamped k t
  | .purge c => store.purge c
  | .merge donor => store.absorb donor

theorem Store.absorb_ts_mono (B : Store) {A : Store} {k : String} {e : ValueTimestamp}
    (h : A.find k = some e) :
    ∃ e', (A.absorb B).find k = some e' ∧ e.timestamp ≤ e'.timestamp := by
  induction B generalizing A e with
  | nil => exact ⟨e, h, le_refl _⟩
  | cons kv rest ih =>
    have hstep : ∃ e1, (A.absorbOne kv).find k = some e1 ∧ e.timestamp ≤ e1.timestamp := by
      rw [Store.find_absorbOne]
      by_cases hk : k = kv.1
      · rw [if_pos hk, ← hk, h]
        dsimp only
        by_cases hlt : e.timestamp < kv.2.timestamp
        · exact ⟨kv.2, by rw [if_pos hlt], le_of_lt hlt⟩
        · exact ⟨e, by rw [if_neg hlt], le_refl _⟩
      · rw [if_neg hk]
        exact ⟨e, h, le_refl _⟩
    obtain ⟨e1, h1, hle1⟩ := hstep
    obtain ⟨e', h', hle'⟩ := ih h1
    exact ⟨e', h', le_trans hle1 hle'⟩

/-- C10: a single operation never decreases the timestamp of a key that
stays present, only `Purge` can remove a present key, and every operation
keeps the store a well-formed map — so along any operation sequence a
present key's timestamp is non-decreasing from one operation to the next. -/
theorem Store.op_timestamp_monotone (S : Store) (op : Op) (hnd : S.nodupKeys) :
    (applyOp S op).nodupKeys ∧
    (∀ k e e', S.find k = some e → (applyOp S op).find k = some e' →
      e.timestamp ≤ e'.timestamp) ∧
    (∀ k e, S.find k = some e → (applyOp S op).find k = none →
      ∃ c, op = Op.purge c) := by
  cases op with
  | set key value t =>
    simp only [applyOp]
    refine ⟨Store.nodupKeys_setTimestamped key value t hnd, ?_, ?_⟩
    · intro k e e' he he'
      rw [Store.find_setTimestamped] at he'
      by_cases hk : k = key
      · rw [if_pos hk] at he'
        rw [hk] at he
        rw [he] at he'
        dsimp only at he'
        by_cases hlt : e.timestamp < t
        · rw [if_pos hlt] at he'
          cases Option.some.inj he'
          exact le_of_lt hlt
        · rw [if_neg hlt] at he'
          cases Option.some.inj he'
          exact le_refl _
      · rw [if_neg hk, he] at he'
        cases Option.some.inj he'
        exact le_refl _
    · intro k e he hnone
      rw [Store.find_setTimestamped] at hnone
      by_cases hk : k = key
      · rw [if_pos hk] at hnone
        rw [hk] at he
        rw [he] at hnone
        dsimp only at hnone
        by_cases hlt : e.timestamp < t
        · rw [if_pos hlt] at hnone; cases hnone
        · rw [if_neg hlt] at hnone; cases hnone
      · rw [if_neg hk, he] at hnone; cases hnone
  | del key t =>
    simp only [applyOp]
    refine ⟨Store.nodupKeys_deleteTimestamped key t hnd, ?_, ?_⟩
    · intro k e e' he he'
      rw [Store.find_deleteTimestamped] at he'
      by_cases hk : k = key
      · rw [if_pos hk] at he'
        rw [hk] at he
        rw [he] at he'
        dsimp only at he'
        by_cases hlt : e.timestamp < t
        · rw [if_pos hlt] at he'
          cases Option.some.inj he'
          exact le_of_lt hlt
        · rw [if_neg hlt] at he'
          cases Option.some.inj he'
          exact le_refl _
      · rw [if_neg hk, he] at he'
        cases Option.some.inj he'
        exact le_refl _
    · intro k e he hnone
      rw [Store.find_deleteTimestamped] at hnone
      by_cases hk : k = key
      · rw [if_pos hk] at hnone
        rw [hk] at he
        rw [he] at hnone
        dsimp only at hnone
        by_cases hlt : e.timestamp < t
        · rw [if_pos hlt] at hnone; cases hnone
        · rw [if_neg hlt] at hnone; cases hnone
      · rw [if_neg hk, he] at hnone; cases hnone
  | purge c =>
    simp only [applyOp]
    refine ⟨Store.nodupKeys_purge c hnd, ?_, fun k e _ _ => ⟨c, rfl⟩⟩
    intro k e e' he he'
    rw [Store.find_purge S c k hnd, he] at he'
    dsimp only at he'
    by_cases hcond : e.value = none ∧ e.timestamp < c
    · rw [if_pos hcond] at he'; cases he'
    · rw [if_neg hcond] at he'
      cases Option.some.inj he'
      exact le_refl _
  | merge donor =>
    simp only [applyOp]
    refine ⟨Store.nodupKeys_absorb donor hnd, ?_, ?_⟩
    · intro k e e' he he'
      obtain ⟨e'', h'', hle⟩ := Store.absorb_ts_mono donor he
      rw [h''] at he'
      cases Option.some.inj he'
      exact hle
    · intro k e he hnone
      obtain ⟨e'', h'', _⟩ := Store.absorb_ts_mono donor he
      rw [h''] at hnone
      cases hnone

/-- Witness for C10: a gated overwrite raises the timestamp. -/
theorem Store.op_timestamp_monotone_witness :
    (⟨some "x", 5⟩ : ValueTimestamp).timestamp ≤
      (⟨some "y", 9⟩ : ValueTimestamp).timestamp :=
  (Store.op_timestamp_monotone [("a", ⟨some "x", 5⟩)] (Op.set "a" "y" 9)
    (by decide)).2.1 "a" ⟨some "x", 5⟩ ⟨some "y", 9⟩ (by decide) (by decide)

/-! ## The Entry codec

`MarshalJSON`/`UnmarshalJSON` call the generic `encoding/json` library. The
library is modelled at the JSON-document level: a document is its abstract
syntax tree, a number the exact rational its literal denotes. Decoding into
`interface{}` turns every number into a `float64`; a finite `float64` is an
exact rational, so the model carries that rational and rounds with the
IEEE-754 binary64 rule (round to nearest, ties to even). -/

/-- A JSON document, as handed to `json.Unmarshal`. -/
inductive Jval where
  | null
  | bool (b : Bool)
  | num (q : ℚ)
  | str (s : String)
  | arr (elems : List Jval)
  | obj (fields : List (String × Jval))

/-- A decoded Go `interface{}` value as produced by `json.Unmarshal`:
numbers have become `float64`, held as the exact rational the float
denotes. -/
inductive GoVal where
  | null
  | bool (b : Bool)
  | num (x : ℚ)
  | str (s : String)
  | arr (elems : List GoVal)
  | obj (fields : List (String × GoVal))

/-- Round the fraction `num / den` (`den > 0`) to an integer: to the
nearest, with ties to even. -/
def roundHalfEvenFrac (num den : Int) : Int :=
  let f := Int.fdiv num den
  let r2 := 2 * (num - f * den)
  if r2 < den then f
  else if den < r2 then f + 1
  else if f % 2 = 0 then f else f + 1

/-- Binary length with explicit fuel, structural so that the kernel can
evaluate it (`Nat.log2` is defined by well-founded recursion and does not
reduce under `decide`). -/
def bitLenAux : Nat → Nat → Nat
  | 0, _ => 0
  | fuel + 1, n => if n = 0 then 0 else bitLenAux fuel (n / 2) + 1

/-- The number of binary digits of `n`; for `n ≥ 1` this is `⌊log₂ n⌋ + 1`. -/
def bitLen (n : Nat) : Nat := bitLenAux n n

/-- Floor of the base-2 logarithm of the positive rational `na / d`. -/
def fracLog2 (na d : Nat) : Int :=
  let k : Int := (bitLen na : Int) - (bitLen d : Int)
  if 0 ≤ k then (if d * 2 ^ k.toNat ≤ na then k else k - 1)
  else (if d ≤ na * 2 ^ (-k).toNat then k else k - 1)

/-- The exact rational value of the IEEE-754 binary64 nearest to `q` (round
to nearest, ties to even), with the subnormal quantum at `2 ^ (-1074)` and an
unbounded exponent above — a result of magnitude `2 ^ 1024` or more means
the float64 overflows, which the number parser below rejects. Written with
primitive integer arithmetic so that it evaluates by `decide`. -/
def roundF64 (q : ℚ) : ℚ :=
  if q.num = 0 then 0
  else
    let na : Nat := q.num.natAbs
    let d : Nat := q.den
    let l : Int := fracLog2 na d - 52
    let e : Int := if l < -1074 then -1074 else l
    let m : Int :=
      if 0 ≤ e then roundHalfEvenFrac (na : Int) ((d * 2 ^ e.toNat : Nat) : Int)
      else roundHalfEvenFrac ((na * 2 ^ (-e).toNat : Nat) : Int) (d : Int)
    let sm : Int := if q.num < 0 then -m else m
    if 0 ≤ e then mkRat (sm * ((2 ^ e.toNat : Nat) : Int)) 1
    else mkRat sm (2 ^ (-e).toNat)

/-- The overflow bound of a binary64 float, `2 ^ 1024`. -/
def f64Limit : ℚ := mkRat ((2 ^ 1024 : Nat) : Int) 1

def int64Min : Int := -(2 ^ 63)

def int64Max : Int := 2 ^ 63 - 1

/-- Go `int64(f)` for a `float64` value `f` (held as its exact rational):
truncation toward zero; when the result does not fit in `int64` the Go
specification makes the value implementation-dependent and amd64 produces
the minimal `int64`. Every theorem below stays inside the representable
range, where all implementations agree. -/
def int64ofF64 (q : ℚ) : Int :=
  if int64Min ≤ Int.tdiv q.num q.den ∧ Int.tdiv q.num q.den ≤ int64Max
  then Int.tdiv q.num q.den else int64Min

/-- Go `float64(n)` for an `int64` value: round to nearest, ties to even. -/
def f64ofInt64 (n : Int) : ℚ := roundF64 (n : ℚ)

/-- Decode-time errors: failures of the underlying `json.Unmarshal`
(`libErr`) and the three `fmt.Errorf` cases of
`ValueTimestamp.UnmarshalJSON` (the Go originals also echo the raw input;
the model keeps the case only). -/
inductive DecodeErr where
  | libErr
  | badShape
  | badValue
  | badTimestamp
deriving DecidableEq, Repr

mutual

/-- Decoding one JSON value into a Go `interface{}`: numbers become
`float64` (overflow of the literal is a library error), arrays and objects
decode their components recursively. -/
def toGoVal : Jval → Except DecodeErr GoVal
  | .null => .ok .null
  | .bool b => .ok (.bool b)
  | .num q =>
    if roundF64 q < f64Limit ∧ -f64Limit < roundF64 q then .ok (.num (roundF64 q))
    else .error .libErr
  | .str s => .ok (.str s)
  | .arr xs => Except.map GoVal.arr (toGoValList xs)
  | .obj fs => Except.map GoVal.obj (toGoValFields fs)

def toGoValList : List Jval → Except DecodeErr (List GoVal)
  | [] => .ok []
  | x :: xs =>
    match toGoVal x with
    | .error e => .error e
    | .ok v =>
      match toGoValList xs with
      | .error e => .error e
      | .ok vs => .ok (v :: vs)

def toGoValFields : List (String × Jval) → Except DecodeErr (List (String × GoVal))
  | [] => .ok []
  | (k, x) :: xs =>
    match toGoVal x with
    | .error e => .error e
    | .ok v =>
      match toGoValFields xs with
      | .error e => .error e
      | .ok vs => .ok ((k, v) :: vs)

end

/-- Go `json.Unmarshal(b, &jsonValueTimestamp)` where the target is the
`[]interface{}` made with length 0: a JSON array decodes its elements, JSON
`null` has no effect and leaves the slice empty, and any other document is a
type error. -/
def jsonUnmarshalArr : Jval → Except DecodeErr (List GoVal)
  | .null => .ok []
  | .arr xs => toGoValList xs
  | _ => .error .libErr

/-- Go `ValueTimestamp.MarshalJSON`:
`json.Marshal([]interface{}{valueTimestamp.Value, valueTimestamp.Timestamp})`
produces the two-element array `[value-or-null, timestamp]`; an `int64`
marshals to a decimal literal denoting it exactly. -/
def ValueTimestamp.marshalJSON (vt : ValueTimestamp) : Jval :=
  Jval.arr [(match vt.value with
             | none => Jval.null
             | some s => Jval.str s),
            Jval.num (vt.timestamp : ℚ)]

/-- Go `ValueTimestamp.UnmarshalJSON` applied to receiver `vt`: the Go
method mutates `valueTimestamp` in place and returns an `error`; the model
returns the final receiver together with the error, if any. The `Value`
field is assigned while handling element 0, before element 1 is checked;
the timestamp check `float64(int64(t)) != t` accepts exactly the floats
that convert to `int64` and back without change. -/
def ValueTimestamp.unmarshalJSON (vt : ValueTimestamp) (b : Jval) :
    ValueTimestamp × Option DecodeErr :=
  match jsonUnmarshalArr b with
  | .error e => (vt, some e)
  | .ok elems =>
    match elems with
    | [x0, x1] =>
      let timestampStep := fun (vt1 : ValueTimestamp) =>
        match x1 with
        | GoVal.num t =>
          if f64ofInt64 (int64ofF64 t) = t then
            ({ vt1 with timestamp := int64ofF64 t }, none)
          else (vt1, some DecodeErr.badTimestamp)
        | _ => (vt1, some DecodeErr.badTimestamp)
      match x0 with
      | GoVal.null => timestampStep { vt with value := none }
      | GoVal.str s => timestampStep { vt with value := some s }
      | _ => (vt, some DecodeErr.badValue)
    | _ => (vt, some DecodeErr.badShape)

/-! ## C1: the round-trip of the Entry codec -/

/-- Counterexample to C1 as stated: the timestamp `2^53 + 1` is a valid
`int64`, but `json.Unmarshal` parses its decimal literal into a `float64`,
which silently rounds it to `2^53`; decode of encode then succeeds with the
wrong timestamp, so `decode (encode e) ≠ e`. -/
theorem entry_roundtrip_counterexample :
    ValueTimestamp.unmarshalJSON ⟨none, 0⟩
        (ValueTimestamp.marshalJSON ⟨none, 9007199254740993⟩)
      ≠ (⟨none, 9007199254740993⟩, none) := by decide

theorem int64_cast_lt_f64Limit {t : Int} (hlo : int64Min ≤ t) (hhi : t ≤ int64Max) :
    (t : ℚ) < f64Limit ∧ -f64Limit < (t : ℚ) := by
  have hlim : f64Limit = (((2 ^ 1024 : Nat) : Int) : ℚ) := by
    unfold f64Limit
    rw [Rat.mkRat_one]
  have h1 : t < ((2 ^ 1024 : Nat) : Int) := by
    unfold int64Max at hhi
    calc t ≤ 2 ^ 63 - 1 := hhi
      _ < ((2 ^ 1024 : Nat) : Int) := by norm_num
  have h2 : -((2 ^ 1024 : Nat) : Int) < t := by
    unfold int64Min at hlo
    calc -((2 ^ 1024 : Nat) : Int) < -(2 ^ 63) := by norm_num
      _ ≤ t := hlo
  constructor
  · rw [hlim]
    exact_mod_cast h1
  · rw [hlim]
    exact_mod_cast h2

/-- C1 amended: the codec round-trips exactly on every entry whose `int64`
timestamp is exactly representable as an IEEE-754 binary64 (equivalently,
the nearest float64 to it is itself — in particular every timestamp of
magnitude at most `2^53`); `UnmarshalJSON` then succeeds and rebuilds the
entry, whatever state the receiver was in. -/
theorem entry_roundtrip (e vt0 : ValueTimestamp)
    (hlo : int64Min ≤ e.timestamp) (hhi : e.timestamp ≤ int64Max)
    (hrep : roundF64 ((e.timestamp : Int) : ℚ) = ((e.timestamp : Int) : ℚ)) :
    ValueTimestamp.unmarshalJSON vt0 (ValueTimestamp.marshalJSON e) = (e, none) := by
  obtain ⟨val, t⟩ := e
  simp only at hlo hhi hrep
  have hbound := int64_cast_lt_f64Limit hlo hhi
  have hnum : toGoVal (Jval.num ((t : Int) : ℚ)) = .ok (.num ((t : Int) : ℚ)) := by
    unfold toGoVal
    rw [hrep]
    exact if_pos hbound
  have hint : int64ofF64 ((t : Int) : ℚ) = t := by
    unfold int64ofF64
    rw [Rat.num_intCast, Rat.den_intCast]
    rw [show ((1 : Nat) : Int) = 1 from rfl, Int.tdiv_one]
    exact if_pos ⟨hlo, hhi⟩
  have hcheck : f64ofInt64 t = ((t : Int) : ℚ) := by
    unfold f64ofInt64
    exact hrep
  rcases val with _ | s
  · have hlist : jsonUnmarshalArr (ValueTimestamp.marshalJSON ⟨none, t⟩)
        = .ok [GoVal.null, GoVal.num ((t : Int) : ℚ)] := by
      show toGoValList [Jval.null, Jval.num ((t : Int) : ℚ)] = _
      have h0 : toGoVal Jval.null = .ok GoVal.null := rfl
      simp only [toGoValList, h0, hnum]
    simp only [ValueTimestamp.unmarshalJSON, hlist, hcheck, hint, if_true, eq_self_iff_true]
  · have hlist : jsonUnmarshalArr (ValueTimestamp.marshalJSON ⟨some s, t⟩)
        = .ok [GoVal.str s, GoVal.num ((t : Int) : ℚ)] := by
      show toGoValList [Jval.str s, Jval.num ((t : Int) : ℚ)] = _
      have h0 : toGoVal (Jval.str s) = .ok (GoVal.str s) := rfl
      simp only [toGoValList, h0, hnum]
    simp only [ValueTimestamp.unmarshalJSON, hlist, hcheck, hint, if_true, eq_self_iff_true]

/-- Witness for the amended C1 at a concrete entry and receiver. -/
theorem entry_roundtrip_witness :
    ValueTimestamp.unmarshalJSON ⟨some "z", 42⟩ (ValueTimestamp.marshalJSON ⟨some "one", 1⟩)
      = (⟨some "one", 1⟩, none) :=
  entry_roundtrip ⟨some "one", 1⟩ ⟨some "z", 42⟩ (by decide) (by decide) (by decide)

/-! ## C5: what a failed decode leaves behind -/

/-- Counterexample to C5 as stated: on the input `["one","two"]` (the
repository's own `TestValueTimestampUnmarshalJunk4` input) `UnmarshalJSON`
returns the invalid-timestamp error, yet it has already overwritten the
receiver's value field with `"one"`. -/
theorem unmarshal_error_mutates :
    (ValueTimestamp.unmarshalJSON ⟨none, 5⟩ (Jval.arr [Jval.str "one", Jval.str "two"])).2
        ≠ none ∧
    (ValueTimestamp.unmarshalJSON ⟨none, 5⟩ (Jval.arr [Jval.str "one", Jval.str "two"])).1
        ≠ ⟨none, 5⟩ := by
  decide

/-- C5 amended: when `UnmarshalJSON` fails, the timestamp field is always
left unchanged, and the value field is also unchanged unless the failure is
the invalid-timestamp error — in that one case the decoded first element has
already been stored into the value field. -/
theorem unmarshal_error_effect (vt : ValueTimestamp) (b : Jval) :
    ((ValueTimestamp.unmarshalJSON vt b).2 ≠ none →
      (ValueTimestamp.unmarshalJSON vt b).1.timestamp = vt.timestamp) ∧
    ((ValueTimestamp.unmarshalJSON vt b).2 ≠ none →
      (ValueTimestamp.unmarshalJSON vt b).2 ≠ some DecodeErr.badTimestamp →
      (ValueTimestamp.unmarshalJSON vt b).1 = vt) := by
  unfold ValueTimestamp.unmarshalJSON
  rcases hj : jsonUnmarshalArr b with e | elems
  · exact ⟨fun _ => rfl, fun _ _ => rfl⟩
  · rcases elems with _ | ⟨x0, _ | ⟨x1, _ | ⟨x2, rest⟩⟩⟩
    · exact ⟨fun _ => rfl, fun _ _ => rfl⟩
    · exact ⟨fun _ => rfl, fun _ _ => rfl⟩
    · rcases x0 with _ | b0 | q0 | s0 | xs0 | fs0
      · rcases x1 with _ | b1 | q1 | s1 | xs1 | fs1
        · exact ⟨fun _ => rfl, fun _ h => absurd rfl h⟩
        · exact ⟨fun _ => rfl, fun _ h => absurd rfl h⟩
        · by_cases hc : f64ofInt64 (int64ofF64 q1) = q1
          · simp [if_pos hc]
          · simp [if_neg hc]
        · exact ⟨fun _ => rfl, fun _ h => absurd rfl h⟩
        · exact ⟨fun _ => rfl, fun _ h => absurd rfl h⟩
        · exact ⟨fun _ => rfl, fun _ h => absurd rfl h⟩
      · exact ⟨fun _ => rfl, fun _ _ => rfl⟩
      · exact ⟨fun _ => rfl, fun _ _ => rfl⟩
      · rcases x1 with _ | b1 | q1 | s1 | xs1 | fs1
        · exact ⟨fun _ => rfl, fun _ h => absurd rfl h⟩
        · exact ⟨fun _ => rfl, fun _ h => absurd rfl h⟩
        · by_cases hc : f64ofInt64 (int64ofF64 q1) = q1
          · simp [if_pos hc]
          · simp [if_neg hc]
        · exact ⟨fun _ => rfl, fun _ h => absurd rfl h⟩
        · exact ⟨fun _ => rfl, fun _ h => absurd rfl h⟩
        · exact ⟨fun _ => rfl, fun _ h => absurd rfl h⟩
      · exact ⟨fun _ => rfl, fun _ _ => rfl⟩
      · exact ⟨fun _ => rfl, fun _ _ => rfl⟩
    · exact ⟨fun _ => rfl, fun _ _ => rfl⟩

/-- Witness for the amended C5: a failed decode of a top-level number leaves
the whole entry unchanged. -/
theorem unmarshal_error_effect_witness :
    (ValueTimestamp.unmarshalJSON ⟨some "v", 3⟩ (Jval.num 1)).1 = ⟨some "v", 3⟩ :=
  (unmarshal_error_effect ⟨some "v", 3⟩ (Jval.num 1)).2 (by decide) (by decide)
